import Mathlib

/-!
Verification of the cross-thread coordination layer of CEmu's `EmuThread`
(`src/gui/qt/emuthread.cpp`): the semaphore-guarded console ring buffer
(`writeConsoleBuffer`), the throttle (`throttleTimerWait`, `setActualSpeed`),
the receive rendezvous (`unlock` / the receive section of `doStuff`), the
lifecycle (`stop`), the file-send batch (`sendFiles`) and the debugger
request (`debug`).

Machine integers are modelled as `Nat`/`Int`; C++ truncating integer
division is `Int.tdiv`; time points and durations of
`std::chrono::steady_clock` are integers counting nanoseconds; the byte
contents of buffers are `List Nat`.
-/

namespace CEmu

/-- Overwrite `buf.set p d0, buf.set (p+1) d1, ...`: the bytes of `data` are
written into `buf` starting at index `p` (bytes falling outside `buf` are
dropped, as `List.set` ignores out-of-range indices).  This models `memcpy`
(and the write part of `vsnprintf`/`memmove`) into a C array. -/
def writeBytes (buf : List Nat) (p : Nat) : List Nat → List Nat
  | [] => buf
  | b :: bs => writeBytes (buf.set p b) (p + 1) bs

/-- The `n` bytes of `buf` starting at index `a` (shorter if `buf` ends). -/
def listSlice (buf : List Nat) (a n : Nat) : List Nat :=
  (buf.drop a).take n

/-- `QSemaphore::acquire n` on a semaphore holding `avail` permits: succeeds
(with the new permit count) exactly when enough permits are available;
`none` models the call blocking on the other thread. -/
def semAcquire (n avail : Nat) : Option Nat :=
  if n ≤ avail then some (avail - n) else none

/-- State of the console channel of `EmuThread`:
`buf` is `consoleBuffer` (length = `CONSOLE_BUFFER_SIZE`, the parameter `C`
below), `pos` is `consoleWritePosition`, `writeAvail` and `readAvail` are
the permit counts of `consoleWriteSemaphore` and `consoleReadSemaphore`,
and `stream` records, in release order, the bytes of every region made
readable by a `consoleReadSemaphore.release` (the byte stream the consumer
observes). -/
structure EmuConsole where
  buf : List Nat
  pos : Nat
  writeAvail : Nat
  readAvail : Nat
  stream : List Nat
  deriving DecidableEq

/-- The constructor `EmuThread::EmuThread`: `consoleWriteSemaphore` starts
with `CONSOLE_BUFFER_SIZE` permits, the read semaphore with none, the write
position at zero. -/
def initialConsole (C : Nat) : EmuConsole :=
  { buf := List.replicate C 0
    pos := 0
    writeAvail := C
    readAvail := 0
    stream := [] }

/-- The bytes `vsnprintf(dst + off, space, format, args)` deposits: at most
`space - 1` message bytes followed by the terminating NUL (modelled as the
byte `0`); nothing is written when `space = 0`.  The fully formatted
message is `msg`; the return value of `vsnprintf` is `msg.length`. -/
def vsnprintfWrite (buf : List Nat) (off space : Nat) (msg : List Nat) : List Nat :=
  if space = 0 then buf
  else writeBytes buf off (msg.take (min msg.length (space - 1)) ++ [0])

/-- Read `n` scratch bytes starting at `a`: in the oversized path of
`writeConsoleBuffer` the scratch pointer `buffer` is either the ring's own
backing storage (`scratch = none`, read from the current ring contents) or
a freshly heap-allocated array (`scratch = some B`). -/
def scratchRead (ringBuf : List Nat) (scratch : Option (List Nat)) (a n : Nat) : List Nat :=
  match scratch with
  | none => listSlice ringBuf a n
  | some B => listSlice B a n

/-- The copy loop of the oversized path of `EmuThread::writeConsoleBuffer`
(lines 81-97): while `size >= remaining` acquire `remaining` write permits,
`memcpy` a chunk from the scratch into the ring at the write position, wrap
the position to `0`, release `remaining` read permits; afterwards, if bytes
are left, acquire/`memmove`/release the final (possibly overlapping) chunk
and advance the position.  Each release appends the bytes of the
newly-readable region to `stream`.  `fuel` is a structural-termination
counter: the caller passes `size + 1`, which is enough because every
iteration consumes `remaining ≥ 1` of `size` (the extra conjunct
`0 < remaining` in the guard only rules out the unreachable `remaining = 0`
case, in which the C loop would not terminate; `remaining = C - pos > 0`
whenever `pos < C`). -/
def chunkLoopAux (C : Nat) (scratch : Option (List Nat)) :
    Nat → Nat → Nat → Nat → EmuConsole → Option EmuConsole
  | 0, _, _, _, _ => none
  | fuel + 1, bufferPosition, size, remaining, s =>
    if remaining ≤ size ∧ 0 < remaining then
      match semAcquire remaining s.writeAvail with
      | none => none
      | some wa =>
        let chunk := scratchRead s.buf scratch bufferPosition remaining
        let newBuf := writeBytes s.buf s.pos chunk
        chunkLoopAux C scratch fuel (bufferPosition + remaining)
          (size - remaining) C
          { buf := newBuf
            pos := 0
            writeAvail := wa
            readAvail := s.readAvail + remaining
            stream := s.stream ++ listSlice newBuf s.pos remaining }
    else
      if 0 < size then
        match semAcquire size s.writeAvail with
        | none => none
        | some wa =>
          let chunk := scratchRead s.buf scratch bufferPosition size
          let newBuf := writeBytes s.buf s.pos chunk
          some { buf := newBuf
                 pos := s.pos + size
                 writeAvail := wa
                 readAvail := s.readAvail + size
                 stream := s.stream ++ listSlice newBuf s.pos size }
      else some s

/-- `EmuThread::writeConsoleBuffer` (lines 62-103), for one call whose
fully formatted message is `msg` (the destination tag does not influence
the channel state).  First `vsnprintf` formats optimistically into the ring
at the write position with `space = min(available, remaining)`.  If the
full size fits (`size < space`) the bytes are committed in place with one
acquire/release.  Otherwise the message is re-formatted into a scratch
area: the ring's own storage at offset `0` when `size < available -
remaining`, else a heap array of `size + 1` bytes, and then copied in by
`chunkLoopAux`.  `none` models an acquire that would block on the consumer
(the heap allocation is assumed to succeed and `vsnprintf` not to fail, so
the silent-drop branch is not taken). -/
def writeConsoleBuffer (C : Nat) (msg : List Nat) (s : EmuConsole) : Option EmuConsole :=
  let available := s.writeAvail
  let remaining := C - s.pos
  let space := min available remaining
  let size := msg.length
  let s0 : EmuConsole := { s with buf := vsnprintfWrite s.buf s.pos space msg }
  if size < space then
    if 0 < size then
      match semAcquire size s0.writeAvail with
      | none => none
      | some wa =>
        some { s0 with
               pos := s0.pos + size
               writeAvail := wa
               readAvail := s0.readAvail + size
               stream := s0.stream ++ listSlice s0.buf s0.pos size }
    else some s0
  else
    if size < available - remaining then
      chunkLoopAux C none (size + 1) 0 size remaining
        { s0 with buf := writeBytes s0.buf 0 (msg ++ [0]) }
    else
      chunkLoopAux C (some (msg ++ [0])) (size + 1) 0 size remaining s0

/-- A sequence of `writeConsoleBuffer` calls, in call order (the single
producer is the computation thread, so calls never interleave). -/
def writeMany (C : Nat) : List (List Nat) → EmuConsole → Option EmuConsole
  | [], s => some s
  | m :: ms, s =>
    match writeConsoleBuffer C m s with
    | none => none
    | some s' => writeMany C ms s'

/-- The consumer's read cursor, determined by the producer state: the
producer is `writeAvail` bytes ahead of the reader (mod `C`). -/
def readCursor (C : Nat) (s : EmuConsole) : Nat :=
  (s.pos + s.writeAvail) % C

theorem writeBytes_length (data : List Nat) : ∀ (buf : List Nat) (p : Nat),
    (writeBytes buf p data).length = buf.length := by
  induction data with
  | nil => intro buf p; rfl
  | cons b bs ih => intro buf p; simp [writeBytes, ih]

theorem writeBytes_getElem?_left (data : List Nat) : ∀ (buf : List Nat) (p i : Nat), i < p →
    (writeBytes buf p data)[i]? = buf[i]? := by
  induction data with
  | nil => intros; rfl
  | cons b bs ih =>
    intro buf p i h
    simp only [writeBytes]
    rw [ih _ _ _ (by omega)]
    exact List.getElem?_set_ne (by omega)

theorem writeBytes_getElem?_right (data : List Nat) : ∀ (buf : List Nat) (p i : Nat),
    p + data.length ≤ i →
    (writeBytes buf p data)[i]? = buf[i]? := by
  induction data with
  | nil => intros; rfl
  | cons b bs ih =>
    intro buf p i h
    simp only [List.length_cons] at h
    simp only [writeBytes]
    rw [ih _ _ _ (by omega)]
    exact List.getElem?_set_ne (by omega)

theorem writeBytes_getElem?_inside (data : List Nat) : ∀ (buf : List Nat) (p j : Nat),
    p + data.length ≤ buf.length → j < data.length →
    (writeBytes buf p data)[p + j]? = data[j]? := by
  induction data with
  | nil => intro _ _ j _ hj; exact absurd hj (by simp)
  | cons b bs ih =>
    intro buf p j hlen hj
    simp only [List.length_cons] at hlen hj
    simp only [writeBytes]
    cases j with
    | zero =>
      rw [writeBytes_getElem?_left bs (buf.set p b) (p + 1) (p + 0) (by omega)]
      simp only [Nat.add_zero]
      rw [List.getElem?_set_eq_of_lt b (by omega)]
      simp
    | succ j' =>
      have hp : p + (j' + 1) = (p + 1) + j' := by omega
      rw [hp, ih (buf.set p b) (p + 1) j' (by simp; omega) (by omega)]
      simp

theorem listSlice_length (buf : List Nat) (a n : Nat) :
    (listSlice buf a n).length = min n (buf.length - a) := by
  simp [listSlice]

theorem listSlice_getElem?_lt (buf : List Nat) (a n i : Nat) (h : i < n) :
    (listSlice buf a n)[i]? = buf[a + i]? := by
  simp only [listSlice]
  rw [List.getElem?_take_of_lt h, List.getElem?_drop]

theorem listSlice_getElem?_ge (buf : List Nat) (a n i : Nat) (h : n ≤ i) :
    (listSlice buf a n)[i]? = none := by
  apply List.getElem?_eq_none
  exact le_trans (List.length_take_le n (buf.drop a)) h

theorem listSlice_writeBytes_inside (buf : List Nat) (p : Nat) (data : List Nat) (a n : Nat)
    (h1 : p + data.length ≤ buf.length) (h2 : a + n ≤ data.length) :
    listSlice (writeBytes buf p data) (p + a) n = listSlice data a n := by
  apply List.ext_getElem?
  intro i
  by_cases hi : i < n
  · rw [listSlice_getElem?_lt _ _ _ _ hi, listSlice_getElem?_lt _ _ _ _ hi]
    have hpa : p + a + i = p + (a + i) := by omega
    rw [hpa, writeBytes_getElem?_inside data buf p (a + i) h1 (by omega)]
  · rw [listSlice_getElem?_ge _ _ _ _ (by omega), listSlice_getElem?_ge _ _ _ _ (by omega)]

theorem listSlice_writeBytes_self (buf : List Nat) (p : Nat) (data : List Nat)
    (h : p + data.length ≤ buf.length) :
    listSlice (writeBytes buf p data) p data.length = data := by
  have h0 := listSlice_writeBytes_inside buf p data 0 data.length h (by omega)
  simpa [listSlice] using h0

theorem listSlice_writeBytes_left (buf : List Nat) (p : Nat) (data : List Nat) (a n : Nat)
    (h : a + n ≤ p) :
    listSlice (writeBytes buf p data) a n = listSlice buf a n := by
  apply List.ext_getElem?
  intro i
  by_cases hi : i < n
  · rw [listSlice_getElem?_lt _ _ _ _ hi, listSlice_getElem?_lt _ _ _ _ hi,
      writeBytes_getElem?_left data buf p (a + i) (by omega)]
  · rw [listSlice_getElem?_ge _ _ _ _ (by omega), listSlice_getElem?_ge _ _ _ _ (by omega)]

theorem listSlice_append_zero (msg : List Nat) (a n : Nat) (h : a + n ≤ msg.length) :
    listSlice (msg ++ [0]) a n = listSlice msg a n := by
  unfold listSlice
  rw [List.drop_append_of_le_length (by omega),
    List.take_append_of_le_length (by rw [List.length_drop]; omega)]

theorem listSlice_zero_length (msg : List Nat) : listSlice msg 0 msg.length = msg := by
  simp [listSlice]

theorem listSlice_split (buf : List Nat) (a m n : Nat) :
    listSlice buf a (m + n) = listSlice buf a m ++ listSlice buf (a + m) n := by
  simp only [listSlice]
  rw [List.take_add, List.drop_drop]

theorem semAcquire_some (n avail : Nat) (h : n ≤ avail) :
    semAcquire n avail = some (avail - n) := by
  unfold semAcquire
  rw [if_pos h]

/-- Every successful run of the copy loop acquires exactly as many write
permits as it releases read permits and appends to the readable stream,
and advances the write position by that amount modulo the capacity. -/
theorem chunkLoopAux_inv (C : Nat) (scratch : Option (List Nat)) :
    ∀ (fuel bufferPosition size remaining : Nat) (s s' : EmuConsole),
    0 < C → s.buf.length = C → s.pos < C → remaining = C - s.pos →
    chunkLoopAux C scratch fuel bufferPosition size remaining s = some s' →
    ∃ g, s'.stream.length = s.stream.length + g ∧ g ≤ s.writeAvail ∧
      s'.writeAvail = s.writeAvail - g ∧ s'.readAvail = s.readAvail + g ∧
      s'.pos = (s.pos + g) % C ∧ s'.pos < C ∧ s'.buf.length = C := by
  intro fuel
  induction fuel with
  | zero =>
    intro bp size remaining s s' _ _ _ _ h
    exact absurd h (by simp [chunkLoopAux])
  | succ fuel ih =>
    intro bp size remaining s s' hC hlen hpos hrem h
    by_cases hg : remaining ≤ size ∧ 0 < remaining
    · by_cases hle : remaining ≤ s.writeAvail
      · rw [show chunkLoopAux C scratch (fuel + 1) bp size remaining s
            = chunkLoopAux C scratch fuel (bp + remaining) (size - remaining) C
              { buf := writeBytes s.buf s.pos (scratchRead s.buf scratch bp remaining)
                pos := 0
                writeAvail := s.writeAvail - remaining
                readAvail := s.readAvail + remaining
                stream := s.stream ++ listSlice (writeBytes s.buf s.pos
                  (scratchRead s.buf scratch bp remaining)) s.pos remaining }
            from by simp only [chunkLoopAux, if_pos hg, semAcquire_some remaining _ hle]] at h
        obtain ⟨g', hg1, hg2, hg3, hg4, hg5, hg6, hg7⟩ :=
          ih (bp + remaining) (size - remaining) C _ s' hC
            (by simp [writeBytes_length, hlen]) hC (by dsimp only; omega) h
        dsimp only at hg1 hg2 hg3 hg4 hg5
        have hslice : (listSlice (writeBytes s.buf s.pos
            (scratchRead s.buf scratch bp remaining)) s.pos remaining).length = remaining := by
          rw [listSlice_length, writeBytes_length, hlen]
          omega
        rw [List.length_append, hslice] at hg1
        refine ⟨remaining + g', by omega, by omega, by omega, by omega, ?_, hg6, hg7⟩
        have hCg : s.pos + (remaining + g') = C + g' := by omega
        rw [hCg, Nat.add_mod_left]
        simpa using hg5
      · exfalso
        rw [show chunkLoopAux C scratch (fuel + 1) bp size remaining s = none
            from by simp only [chunkLoopAux, if_pos hg, semAcquire,
              if_neg hle]] at h
        exact absurd h (by simp)
    · have hsz : size < remaining := by omega
      by_cases h0 : 0 < size
      · by_cases hle : size ≤ s.writeAvail
        · rw [show chunkLoopAux C scratch (fuel + 1) bp size remaining s
              = some { buf := writeBytes s.buf s.pos (scratchRead s.buf scratch bp size)
                       pos := s.pos + size
                       writeAvail := s.writeAvail - size
                       readAvail := s.readAvail + size
                       stream := s.stream ++ listSlice (writeBytes s.buf s.pos
                         (scratchRead s.buf scratch bp size)) s.pos size }
              from by simp only [chunkLoopAux, if_neg hg, if_pos h0,
                semAcquire_some size _ hle]] at h
          have hs' := (Option.some.inj h).symm
          subst hs'
          have hslice : (listSlice (writeBytes s.buf s.pos
              (scratchRead s.buf scratch bp size)) s.pos size).length = size := by
            rw [listSlice_length, writeBytes_length, hlen]
            omega
          refine ⟨size, ?_, by omega, by dsimp only, by dsimp only, ?_, ?_, ?_⟩
          · dsimp only
            rw [List.length_append, hslice]
          · dsimp only
            rw [Nat.mod_eq_of_lt (by omega)]
          · dsimp only
            omega
          · dsimp only
            rw [writeBytes_length, hlen]
        · exfalso
          rw [show chunkLoopAux C scratch (fuel + 1) bp size remaining s = none
              from by simp only [chunkLoopAux, if_neg hg, if_pos h0, semAcquire,
                if_neg hle]] at h
          exact absurd h (by simp)
      · rw [show chunkLoopAux C scratch (fuel + 1) bp size remaining s = some s
            from by simp only [chunkLoopAux, if_neg hg, if_neg h0]] at h
        have hs' := (Option.some.inj h).symm
        subst hs'
        exact ⟨0, by omega, by omega, by omega, by omega,
          by rw [Nat.mod_eq_of_lt (by omega)]; omega, hpos, hlen⟩

theorem chunkLoopAux_step (C : Nat) (scratch : Option (List Nat))
    (fuel fuel' bufferPosition size remaining : Nat) (s : EmuConsole)
    (hf : fuel = fuel' + 1) (hg : remaining ≤ size ∧ 0 < remaining)
    (hle : remaining ≤ s.writeAvail) :
    chunkLoopAux C scratch fuel bufferPosition size remaining s
      = chunkLoopAux C scratch fuel' (bufferPosition + remaining) (size - remaining) C
        { buf := writeBytes s.buf s.pos (scratchRead s.buf scratch bufferPosition remaining)
          pos := 0
          writeAvail := s.writeAvail - remaining
          readAvail := s.readAvail + remaining
          stream := s.stream ++ listSlice (writeBytes s.buf s.pos
            (scratchRead s.buf scratch bufferPosition remaining)) s.pos remaining } := by
  subst hf
  simp only [chunkLoopAux, if_pos hg, semAcquire_some remaining _ hle]

theorem chunkLoopAux_final_pos (C : Nat) (scratch : Option (List Nat))
    (fuel fuel' bufferPosition size remaining : Nat) (s : EmuConsole)
    (hf : fuel = fuel' + 1) (hg : ¬(remaining ≤ size ∧ 0 < remaining)) (h0 : 0 < size)
    (hle : size ≤ s.writeAvail) :
    chunkLoopAux C scratch fuel bufferPosition size remaining s
      = some { buf := writeBytes s.buf s.pos (scratchRead s.buf scratch bufferPosition size)
               pos := s.pos + size
               writeAvail := s.writeAvail - size
               readAvail := s.readAvail + size
               stream := s.stream ++ listSlice (writeBytes s.buf s.pos
                 (scratchRead s.buf scratch bufferPosition size)) s.pos size } := by
  subst hf
  simp only [chunkLoopAux, if_neg hg, if_pos h0, semAcquire_some size _ hle]

theorem chunkLoopAux_final_zero (C : Nat) (scratch : Option (List Nat))
    (fuel fuel' bufferPosition size remaining : Nat) (s : EmuConsole)
    (hf : fuel = fuel' + 1) (h0 : size = 0) :
    chunkLoopAux C scratch fuel bufferPosition size remaining s = some s := by
  subst hf
  subst h0
  simp only [chunkLoopAux,
    if_neg (by rintro ⟨h1, h2⟩; omega : ¬(remaining ≤ 0 ∧ 0 < remaining)),
    if_neg (by omega : ¬(0 : Nat) < 0)]

/-- Content of a successful run of the copy loop when the scratch is a
separate (heap-allocated) buffer `B`: the bytes made readable are exactly
the `size` scratch bytes starting at `bufferPosition`, in order. -/
theorem chunkLoopAux_heap (C : Nat) (B : List Nat) :
    ∀ (fuel bufferPosition size remaining : Nat) (s : EmuConsole),
    0 < C → s.buf.length = C → s.pos < C → remaining = C - s.pos →
    size < fuel → size ≤ s.writeAvail → bufferPosition + size < B.length →
    ∃ s', chunkLoopAux C (some B) fuel bufferPosition size remaining s = some s' ∧
      s'.stream = s.stream ++ listSlice B bufferPosition size ∧
      s'.writeAvail = s.writeAvail - size ∧ s'.readAvail = s.readAvail + size ∧
      s'.pos = (s.pos + size) % C ∧ s'.pos < C ∧ s'.buf.length = C := by
  intro fuel
  induction fuel with
  | zero => intro bp size remaining s _ _ _ _ hf; omega
  | succ fuel ih =>
    intro bp size remaining s hC hlen hpos hrem hf hwa hB
    by_cases hg : remaining ≤ size ∧ 0 < remaining
    · have hchunk : scratchRead s.buf (some B) bp remaining = listSlice B bp remaining := by
        simp [scratchRead]
      have hchunklen : (listSlice B bp remaining).length = remaining := by
        rw [listSlice_length]
        omega
      have hselfslice : listSlice (writeBytes s.buf s.pos (listSlice B bp remaining))
          s.pos remaining = listSlice B bp remaining := by
        have := listSlice_writeBytes_self s.buf s.pos (listSlice B bp remaining)
          (by rw [hchunklen, hlen]; omega)
        rwa [hchunklen] at this
      have hstep : chunkLoopAux C (some B) (fuel + 1) bp size remaining s
          = chunkLoopAux C (some B) fuel (bp + remaining) (size - remaining) C
            { buf := writeBytes s.buf s.pos (listSlice B bp remaining)
              pos := 0
              writeAvail := s.writeAvail - remaining
              readAvail := s.readAvail + remaining
              stream := s.stream ++ listSlice B bp remaining } := by
        simp only [chunkLoopAux, if_pos hg,
          semAcquire_some remaining s.writeAvail (by omega), hchunk, hselfslice]
      obtain ⟨s', hrun, h2, h3, h4, h5, h6, h7⟩ :=
        ih (bp + remaining) (size - remaining) C
          { buf := writeBytes s.buf s.pos (listSlice B bp remaining)
            pos := 0
            writeAvail := s.writeAvail - remaining
            readAvail := s.readAvail + remaining
            stream := s.stream ++ listSlice B bp remaining }
          hC (by simp [writeBytes_length, hlen]) hC (by dsimp only; omega) (by omega)
          (by dsimp only; omega) (by omega)
      refine ⟨s', by rw [hstep]; exact hrun, ?_, by simp at h3; omega,
        by simp at h4; omega, ?_, h6, h7⟩
      · rw [h2]
        simp only [List.append_assoc]
        have hsplit : listSlice B bp size
            = listSlice B bp remaining ++ listSlice B (bp + remaining) (size - remaining) := by
          have := listSlice_split B bp remaining (size - remaining)
          rwa [show remaining + (size - remaining) = size from by omega] at this
        rw [hsplit]
      · rw [h5]
        simp only
        have hCg : s.pos + size = C + (size - remaining) := by omega
        rw [hCg, Nat.add_mod_left]
        simp
    · have hsz : size < remaining := by omega
      by_cases h0 : 0 < size
      · have hchunk : scratchRead s.buf (some B) bp size = listSlice B bp size := by
          simp [scratchRead]
        have hchunklen : (listSlice B bp size).length = size := by
          rw [listSlice_length]
          omega
        have hselfslice : listSlice (writeBytes s.buf s.pos (listSlice B bp size))
            s.pos size = listSlice B bp size := by
          have := listSlice_writeBytes_self s.buf s.pos (listSlice B bp size)
            (by rw [hchunklen, hlen]; omega)
          rwa [hchunklen] at this
        refine ⟨{ buf := writeBytes s.buf s.pos (listSlice B bp size)
                  pos := s.pos + size
                  writeAvail := s.writeAvail - size
                  readAvail := s.readAvail + size
                  stream := s.stream ++ listSlice B bp size }, ?_, ?_, ?_, ?_, ?_, ?_, ?_⟩
        · simp only [chunkLoopAux, if_neg hg, if_pos h0,
            semAcquire_some size s.writeAvail hwa, hchunk, hselfslice]
        · rfl
        · rfl
        · rfl
        · dsimp only
          rw [Nat.mod_eq_of_lt (by omega)]
        · dsimp only
          omega
        · dsimp only
          rw [writeBytes_length, hlen]
      · have hsz0 : size = 0 := by omega
        refine ⟨s, ?_, ?_, by omega, by omega, ?_, hpos, hlen⟩
        · simp only [chunkLoopAux, if_neg hg, if_neg h0]
        · subst hsz0
          simp [listSlice]
        · rw [Nat.mod_eq_of_lt (by omega)]
          omega

/-- Detailed run of the oversized path of `writeConsoleBuffer` when the
ring's own backing storage is reused as the scratch formatting area
(`size < available - remaining`): the call completes without blocking, the
full message is appended to the readable stream, the permits and the write
position move by exactly `size`, and no byte of the ring strictly between
index `size` and the old write position (in particular no unconsumed
readable byte, which all lie in that range) is modified. -/
theorem writeConsoleBuffer_reuse_run (C : Nat) (msg : List Nat) (s : EmuConsole)
    (hC : 0 < C) (hlen : s.buf.length = C) (hpos : s.pos < C)
    (hsum : s.writeAvail + s.readAvail = C)
    (hbig : ¬ msg.length < min s.writeAvail (C - s.pos))
    (hreuse : msg.length < s.writeAvail - (C - s.pos)) :
    ∃ s', writeConsoleBuffer C msg s = some s' ∧
      s'.stream = s.stream ++ msg ∧
      s'.writeAvail = s.writeAvail - msg.length ∧
      s'.readAvail = s.readAvail + msg.length ∧
      s'.pos = (s.pos + msg.length) % C ∧ s'.pos < C ∧ s'.buf.length = C ∧
      ∀ i, msg.length < i → i < s.pos → s'.buf[i]? = s.buf[i]? := by
  have hrem1 : 0 < C - s.pos := by omega
  have hwaC : s.writeAvail ≤ C := by omega
  have hrw : C - s.pos < s.writeAvail := by omega
  have hszrem : C - s.pos ≤ msg.length := by omega
  have hszpos : msg.length < s.pos := by omega
  have hszC : msg.length + 1 ≤ C := by omega
  have hb0len : (vsnprintfWrite s.buf s.pos (min s.writeAvail (C - s.pos)) msg).length = C := by
    unfold vsnprintfWrite
    by_cases h : min s.writeAvail (C - s.pos) = 0
    · rw [if_pos h]
      exact hlen
    · rw [if_neg h, writeBytes_length]
      exact hlen
  set b0 := vsnprintfWrite s.buf s.pos (min s.writeAvail (C - s.pos)) msg with hb0
  set b1 := writeBytes b0 0 (msg ++ [0]) with hb1
  have hmsg0len : (msg ++ [0]).length = msg.length + 1 := by simp
  have hb1len : b1.length = C := by rw [hb1, writeBytes_length]; exact hb0len
  have hchunk1 : listSlice b1 0 (C - s.pos) = msg.take (C - s.pos) := by
    have h := listSlice_writeBytes_inside b0 0 (msg ++ [0]) 0 (C - s.pos)
      (by rw [hb0len, hmsg0len]; omega) (by rw [hmsg0len]; omega)
    rw [Nat.zero_add] at h
    rw [hb1, h, listSlice_append_zero msg 0 (C - s.pos) (by omega)]
    simp [listSlice]
  have hc1len : (msg.take (C - s.pos)).length = C - s.pos := by
    rw [List.length_take]
    omega
  have hself1 : listSlice (writeBytes b1 s.pos (msg.take (C - s.pos))) s.pos (C - s.pos)
      = msg.take (C - s.pos) := by
    have h := listSlice_writeBytes_self b1 s.pos (msg.take (C - s.pos))
      (by rw [hc1len, hb1len]; omega)
    rwa [hc1len] at h
  -- the state after the wrap-around iteration of the copy loop
  set s2 : EmuConsole :=
    { buf := writeBytes b1 s.pos (msg.take (C - s.pos))
      pos := 0
      writeAvail := s.writeAvail - (C - s.pos)
      readAvail := s.readAvail + (C - s.pos)
      stream := s.stream ++ msg.take (C - s.pos) } with hs2
  have hrun1 : writeConsoleBuffer C msg s
      = chunkLoopAux C none msg.length (0 + (C - s.pos))
        (msg.length - (C - s.pos)) C s2 := by
    have hstep := chunkLoopAux_step C none (msg.length + 1) msg.length 0 msg.length
      (C - s.pos) { s with buf := b1 } rfl ⟨hszrem, hrem1⟩ (by dsimp only; omega)
    simp only [writeConsoleBuffer]
    rw [if_neg hbig, if_pos hreuse]
    rw [← hb0, ← hb1]
    rw [hstep]
    congr 1
    dsimp only
    simp only [scratchRead]
    rw [hchunk1, hself1, hs2]
  have hb1get : ∀ i, msg.length < i → i < s.pos → b1[i]? = s.buf[i]? := by
    intro i h1 h2
    rw [hb1, writeBytes_getElem?_right _ _ _ _ (by rw [hmsg0len]; omega), hb0]
    unfold vsnprintfWrite
    by_cases h : min s.writeAvail (C - s.pos) = 0
    · rw [if_pos h]
    · rw [if_neg h, writeBytes_getElem?_left _ _ _ _ (by omega)]
  by_cases hlt : C - s.pos < msg.length
  · -- a final chunk remains after the wrap-around
    have hfin := chunkLoopAux_final_pos C none msg.length (msg.length - 1)
      (0 + (C - s.pos)) (msg.length - (C - s.pos)) C s2 (by omega)
      (by rintro ⟨hx, -⟩; omega) (by omega)
      (by show msg.length - (C - s.pos) ≤ s.writeAvail - (C - s.pos); omega)
    have hchunk2 : scratchRead s2.buf none (0 + (C - s.pos)) (msg.length - (C - s.pos))
        = msg.drop (C - s.pos) := by
      simp only [scratchRead, hs2, Nat.zero_add]
      rw [listSlice_writeBytes_left b1 s.pos (msg.take (C - s.pos)) (C - s.pos)
        (msg.length - (C - s.pos)) (by omega)]
      have h := listSlice_writeBytes_inside b0 0 (msg ++ [0]) (C - s.pos)
        (msg.length - (C - s.pos)) (by rw [hb0len, hmsg0len]; omega)
        (by rw [hmsg0len]; omega)
      rw [Nat.zero_add] at h
      rw [← hb1] at h
      rw [h, listSlice_append_zero msg _ _ (by omega)]
      unfold listSlice
      apply List.take_of_length_le
      rw [List.length_drop]
    have hc2len : (msg.drop (C - s.pos)).length = msg.length - (C - s.pos) := by
      rw [List.length_drop]
    have hself2 : listSlice (writeBytes s2.buf s2.pos (msg.drop (C - s.pos))) s2.pos
        (msg.length - (C - s.pos)) = msg.drop (C - s.pos) := by
      have h := listSlice_writeBytes_self s2.buf s2.pos (msg.drop (C - s.pos))
        (by show 0 + (msg.drop (C - s.pos)).length
              ≤ (writeBytes b1 s.pos (msg.take (C - s.pos))).length
            rw [writeBytes_length, hb1len, List.length_drop]
            omega)
      rwa [hc2len] at h
    rw [hchunk2, hself2] at hfin
    refine ⟨_, by rw [hrun1, hfin], ?_, ?_, ?_, ?_, ?_, ?_, ?_⟩
    · show (s.stream ++ msg.take (C - s.pos)) ++ msg.drop (C - s.pos) = s.stream ++ msg
      rw [List.append_assoc, List.take_append_drop]
    · show (s.writeAvail - (C - s.pos)) - (msg.length - (C - s.pos))
        = s.writeAvail - msg.length
      omega
    · show (s.readAvail + (C - s.pos)) + (msg.length - (C - s.pos))
        = s.readAvail + msg.length
      omega
    · show 0 + (msg.length - (C - s.pos)) = (s.pos + msg.length) % C
      rw [show s.pos + msg.length = C + (msg.length - (C - s.pos)) from by omega,
        Nat.add_mod_left, Nat.mod_eq_of_lt (by omega)]
      omega
    · show 0 + (msg.length - (C - s.pos)) < C
      omega
    · show (writeBytes s2.buf s2.pos (msg.drop (C - s.pos))).length = C
      rw [writeBytes_length]
      show (writeBytes b1 s.pos (msg.take (C - s.pos))).length = C
      rw [writeBytes_length, hb1len]
    · intro i h1 h2
      show (writeBytes (writeBytes b1 s.pos (msg.take (C - s.pos))) 0
        (msg.drop (C - s.pos)))[i]? = s.buf[i]?
      rw [writeBytes_getElem?_right _ _ _ _ (by rw [List.length_drop]; omega)]
      rw [writeBytes_getElem?_left _ _ _ _ (by omega)]
      exact hb1get i h1 h2
  · -- the message ends exactly at the wrap-around
    have hsz : msg.length = C - s.pos := by omega
    have hfin := chunkLoopAux_final_zero C none msg.length (msg.length - 1)
      (0 + (C - s.pos)) (msg.length - (C - s.pos)) C s2 (by omega) (by omega)
    refine ⟨s2, by rw [hrun1, hfin], ?_, ?_, ?_, ?_, ?_, ?_, ?_⟩
    · show s.stream ++ msg.take (C - s.pos) = s.stream ++ msg
      rw [← hsz, List.take_length]
    · show s.writeAvail - (C - s.pos) = s.writeAvail - msg.length
      omega
    · show s.readAvail + (C - s.pos) = s.readAvail + msg.length
      omega
    · show (0 : Nat) = (s.pos + msg.length) % C
      rw [show s.pos + msg.length = C from by omega, Nat.mod_self]
    · exact hC
    · show (writeBytes b1 s.pos (msg.take (C - s.pos))).length = C
      rw [writeBytes_length, hb1len]
    · intro i h1 h2
      show (writeBytes b1 s.pos (msg.take (C - s.pos)))[i]? = s.buf[i]?
      rw [writeBytes_getElem?_left _ _ _ _ (by omega)]
      exact hb1get i h1 h2

theorem vsnprintfWrite_length (buf : List Nat) (off space : Nat) (msg : List Nat) :
    (vsnprintfWrite buf off space msg).length = buf.length := by
  unfold vsnprintfWrite
  split
  · rfl
  · rw [writeBytes_length]

/-- A call whose formatted size fits in the currently free write permits
completes without blocking, appends exactly the message bytes to the
readable stream, consumes `size` write permits, releases `size` read
permits, and advances the write position by `size` modulo the capacity. -/
theorem writeConsoleBuffer_fits (C : Nat) (msg : List Nat) (s : EmuConsole)
    (hC : 0 < C) (hlen : s.buf.length = C) (hpos : s.pos < C)
    (hsum : s.writeAvail + s.readAvail = C) (hfit : msg.length ≤ s.writeAvail) :
    ∃ s', writeConsoleBuffer C msg s = some s' ∧
      s'.stream = s.stream ++ msg ∧
      s'.writeAvail = s.writeAvail - msg.length ∧
      s'.readAvail = s.readAvail + msg.length ∧
      s'.pos = (s.pos + msg.length) % C ∧ s'.pos < C ∧ s'.buf.length = C := by
  by_cases hfast : msg.length < min s.writeAvail (C - s.pos)
  · by_cases h0 : 0 < msg.length
    · have hb0 : vsnprintfWrite s.buf s.pos (min s.writeAvail (C - s.pos)) msg
          = writeBytes s.buf s.pos (msg ++ [0]) := by
        unfold vsnprintfWrite
        rw [if_neg (by omega)]
        rw [show min msg.length (min s.writeAvail (C - s.pos) - 1) = msg.length from by omega,
          List.take_length]
      have hslice : listSlice (writeBytes s.buf s.pos (msg ++ [0])) s.pos msg.length
          = msg := by
        have h := listSlice_writeBytes_inside s.buf s.pos (msg ++ [0]) 0 msg.length
          (by rw [hlen]; simp only [List.length_append, List.length_cons, List.length_nil]
              omega)
          (by simp)
        rw [Nat.add_zero] at h
        rw [h, listSlice_append_zero msg 0 msg.length (by omega), listSlice_zero_length]
      refine ⟨{ buf := vsnprintfWrite s.buf s.pos (min s.writeAvail (C - s.pos)) msg
                pos := s.pos + msg.length
                writeAvail := s.writeAvail - msg.length
                readAvail := s.readAvail + msg.length
                stream := s.stream ++ listSlice (vsnprintfWrite s.buf s.pos
                  (min s.writeAvail (C - s.pos)) msg) s.pos msg.length },
        ?_, ?_, ?_, ?_, ?_, ?_, ?_⟩
      · simp only [writeConsoleBuffer]
        rw [if_pos hfast, if_pos h0, semAcquire_some msg.length s.writeAvail (by omega)]
      · show s.stream ++ listSlice (vsnprintfWrite s.buf s.pos
          (min s.writeAvail (C - s.pos)) msg) s.pos msg.length = s.stream ++ msg
        rw [hb0, hslice]
      · rfl
      · rfl
      · show s.pos + msg.length = (s.pos + msg.length) % C
        rw [Nat.mod_eq_of_lt (by omega)]
      · show s.pos + msg.length < C
        omega
      · show (vsnprintfWrite s.buf s.pos (min s.writeAvail (C - s.pos)) msg).length = C
        rw [vsnprintfWrite_length, hlen]
    · refine ⟨{ s with buf := vsnprintfWrite s.buf s.pos (min s.writeAvail (C - s.pos)) msg },
        ?_, ?_, ?_, ?_, ?_, ?_, ?_⟩
      · simp only [writeConsoleBuffer]
        rw [if_pos hfast, if_neg h0]
      · show s.stream = s.stream ++ msg
        rw [List.length_eq_zero.mp (by omega : msg.length = 0), List.append_nil]
      · show s.writeAvail = s.writeAvail - msg.length
        omega
      · show s.readAvail = s.readAvail + msg.length
        omega
      · show s.pos = (s.pos + msg.length) % C
        rw [show s.pos + msg.length = s.pos from by omega, Nat.mod_eq_of_lt hpos]
      · exact hpos
      · show (vsnprintfWrite s.buf s.pos (min s.writeAvail (C - s.pos)) msg).length = C
        rw [vsnprintfWrite_length, hlen]
  · by_cases hreuse : msg.length < s.writeAvail - (C - s.pos)
    · obtain ⟨s', h1, h2, h3, h4, h5, h6, h7, _⟩ :=
        writeConsoleBuffer_reuse_run C msg s hC hlen hpos hsum hfast hreuse
      exact ⟨s', h1, h2, h3, h4, h5, h6, h7⟩
    · obtain ⟨s', hrun, h2, h3, h4, h5, h6, h7⟩ :=
        chunkLoopAux_heap C (msg ++ [0]) (msg.length + 1) 0 msg.length (C - s.pos)
          { s with buf := vsnprintfWrite s.buf s.pos (min s.writeAvail (C - s.pos)) msg }
          hC (by show (vsnprintfWrite s.buf s.pos (min s.writeAvail (C - s.pos)) msg).length = C
                 rw [vsnprintfWrite_length, hlen])
          hpos rfl (by omega) hfit (by simp)
      have hrun' : writeConsoleBuffer C msg s
          = chunkLoopAux C (some (msg ++ [0])) (msg.length + 1) 0 msg.length (C - s.pos)
            { s with buf := vsnprintfWrite s.buf s.pos (min s.writeAvail (C - s.pos)) msg } := by
        simp only [writeConsoleBuffer]
        rw [if_neg hfast, if_neg hreuse]
      refine ⟨s', by rw [hrun']; exact hrun, ?_, h3, h4, h5, h6, h7⟩
      rw [h2]
      show s.stream ++ listSlice (msg ++ [0]) 0 msg.length = s.stream ++ msg
      rw [listSlice_append_zero msg 0 msg.length (by omega), listSlice_zero_length]

/-- Claim C1: for every sequence of console writes whose total formatted
size is at most the channel's free write permits, all calls complete
without blocking and the byte stream made readable equals the
concatenation of the formatted bytes of the calls, in call order, with no
loss, reordering, or duplication (the chunks of an oversized message
concatenate back to the full message). -/
theorem writeConsoleBuffer_seq_concat (C : Nat) (msgs : List (List Nat)) (s : EmuConsole)
    (hC : 0 < C) (hlen : s.buf.length = C) (hpos : s.pos < C)
    (hsum : s.writeAvail + s.readAvail = C)
    (hfit : (msgs.map List.length).sum ≤ s.writeAvail) :
    ∃ s', writeMany C msgs s = some s' ∧ s'.stream = s.stream ++ msgs.flatten := by
  induction msgs generalizing s with
  | nil => exact ⟨s, rfl, by simp⟩
  | cons m ms ih =>
    simp only [List.map_cons, List.sum_cons] at hfit
    obtain ⟨s1, h1, h2, h3, h4, h5, h6, h7⟩ :=
      writeConsoleBuffer_fits C m s hC hlen hpos hsum (by omega)
    obtain ⟨s', hrun, hstream⟩ := ih s1 h7 h6 (by omega) (by omega)
    refine ⟨s', ?_, ?_⟩
    · simp only [writeMany, h1]
      exact hrun
    · rw [hstream, h2]
      simp [List.append_assoc]

/-- Claim C2: after every completed write, the write-capacity permits and
read-availability permits still sum to the fixed capacity
CONSOLE_BUFFER_SIZE, and the write cursor lies in the interval from 0
(inclusive) to the capacity (exclusive), advanced by exactly the number of
bytes committed (the growth of the readable stream), modulo the
capacity. -/
theorem writeConsoleBuffer_permit_invariant (C : Nat) (msg : List Nat) (s s' : EmuConsole)
    (hC : 0 < C) (hlen : s.buf.length = C) (hpos : s.pos < C)
    (hsum : s.writeAvail + s.readAvail = C)
    (h : writeConsoleBuffer C msg s = some s') :
    s'.writeAvail + s'.readAvail = C ∧ s'.pos < C ∧
      s'.pos = (s.pos + (s'.stream.length - s.stream.length)) % C := by
  by_cases hfit : msg.length ≤ s.writeAvail
  · obtain ⟨s1, h1, h2, h3, h4, h5, h6, h7⟩ :=
      writeConsoleBuffer_fits C msg s hC hlen hpos hsum hfit
    rw [h1] at h
    have hs1 : s1 = s' := Option.some.inj h
    subst hs1
    have hire := congrArg List.length h2
    rw [List.length_append] at hire
    refine ⟨by omega, h6, ?_⟩
    rw [show s1.stream.length - s.stream.length = msg.length from by omega]
    exact h5
  · have hnotfast : ¬ msg.length < min s.writeAvail (C - s.pos) := by omega
    have hnotreuse : ¬ msg.length < s.writeAvail - (C - s.pos) := by omega
    simp only [writeConsoleBuffer] at h
    rw [if_neg hnotfast, if_neg hnotreuse] at h
    obtain ⟨g, hg1, hg2, hg3, hg4, hg5, hg6, hg7⟩ :=
      chunkLoopAux_inv C (some (msg ++ [0])) (msg.length + 1) 0 msg.length (C - s.pos)
        { s with buf := vsnprintfWrite s.buf s.pos (min s.writeAvail (C - s.pos)) msg } s'
        hC (by show (vsnprintfWrite s.buf s.pos (min s.writeAvail (C - s.pos)) msg).length = C
               rw [vsnprintfWrite_length, hlen])
        hpos rfl h
    dsimp only at hg1 hg2 hg3 hg4 hg5
    refine ⟨by omega, hg6, ?_⟩
    rw [show s'.stream.length - s.stream.length = g from by omega]
    exact hg5

/-- Claim C10: in the oversized-message path, whenever the ring buffer's
own backing storage is reused as the scratch formatting area (the case
`size < available - remaining`), the scratch region, indices `0` through
`size`, lies entirely within free space below the consumer's read cursor —
it is disjoint from every index holding a readable-but-unconsumed byte —
and the formatting into it together with the subsequent chunked copies
leaves every readable-but-unconsumed byte of the ring unchanged. -/
theorem writeConsoleBuffer_reuse_safe (C : Nat) (msg : List Nat) (s : EmuConsole)
    (hC : 0 < C) (hlen : s.buf.length = C) (hpos : s.pos < C)
    (hsum : s.writeAvail + s.readAvail = C)
    (hbig : ¬ msg.length < min s.writeAvail (C - s.pos))
    (hreuse : msg.length < s.writeAvail - (C - s.pos)) :
    msg.length < readCursor C s ∧
    (∀ i j, i ≤ msg.length → j < s.readAvail → i ≠ (readCursor C s + j) % C) ∧
    ∃ s', writeConsoleBuffer C msg s = some s' ∧
      ∀ j, j < s.readAvail →
        s'.buf[(readCursor C s + j) % C]? = s.buf[(readCursor C s + j) % C]? := by
  have hwaC : s.writeAvail ≤ C := by omega
  have hrw : C - s.pos < s.writeAvail := by omega
  have hcursor : readCursor C s = s.pos + s.writeAvail - C := by
    unfold readCursor
    rw [Nat.mod_eq_sub_mod (by omega), Nat.mod_eq_of_lt (by omega)]
  refine ⟨by rw [hcursor]; omega, ?_, ?_⟩
  · intro i j h1 h2
    rw [hcursor, Nat.mod_eq_of_lt (by omega)]
    omega
  · obtain ⟨s', h1, _, _, _, _, _, _, hpres⟩ :=
      writeConsoleBuffer_reuse_run C msg s hC hlen hpos hsum hbig hreuse
    refine ⟨s', h1, ?_⟩
    intro j hj
    rw [hcursor, Nat.mod_eq_of_lt (by omega)]
    exact hpres _ (by omega) (by omega)

/-- Witness for claim C1 at a concrete input: two writes of total size 5
into an empty channel of capacity 8 produce the concatenated stream. -/
theorem writeConsoleBuffer_seq_concat_witness :
    (0 : Nat) < 8 ∧
    ((([[1, 2], [3, 4, 5]] : List (List Nat)).map List.length).sum
      ≤ (initialConsole 8).writeAvail) ∧
    (∃ s', writeMany 8 [[1, 2], [3, 4, 5]] (initialConsole 8) = some s' ∧
      s'.stream = (initialConsole 8).stream ++ ([[1, 2], [3, 4, 5]] : List (List Nat)).flatten) :=
  ⟨by decide, by decide,
    writeConsoleBuffer_seq_concat 8 [[1, 2], [3, 4, 5]] (initialConsole 8)
      (by decide) (by decide) (by decide) (by decide) (by decide)⟩

/-- Witness for claim C2 at a concrete input: a completed three-byte write
into an empty channel of capacity 8. -/
theorem writeConsoleBuffer_permit_invariant_witness :
    (writeConsoleBuffer 8 [1, 2, 3] (initialConsole 8)
      = some { buf := [1, 2, 3, 0, 0, 0, 0, 0]
               pos := 3
               writeAvail := 5
               readAvail := 3
               stream := [1, 2, 3] }) ∧
    (({ buf := [1, 2, 3, 0, 0, 0, 0, 0]
        pos := 3
        writeAvail := 5
        readAvail := 3
        stream := [1, 2, 3] } : EmuConsole).writeAvail
      + ({ buf := [1, 2, 3, 0, 0, 0, 0, 0]
           pos := 3
           writeAvail := 5
           readAvail := 3
           stream := [1, 2, 3] } : EmuConsole).readAvail = 8 ∧
     ({ buf := [1, 2, 3, 0, 0, 0, 0, 0]
        pos := 3
        writeAvail := 5
        readAvail := 3
        stream := [1, 2, 3] } : EmuConsole).pos < 8 ∧
     ({ buf := [1, 2, 3, 0, 0, 0, 0, 0]
        pos := 3
        writeAvail := 5
        readAvail := 3
        stream := [1, 2, 3] } : EmuConsole).pos
      = ((initialConsole 8).pos
        + (({ buf := [1, 2, 3, 0, 0, 0, 0, 0]
              pos := 3
              writeAvail := 5
              readAvail := 3
              stream := [1, 2, 3] } : EmuConsole).stream.length
          - (initialConsole 8).stream.length)) % 8) :=
  ⟨by decide,
    writeConsoleBuffer_permit_invariant 8 [1, 2, 3] (initialConsole 8)
      { buf := [1, 2, 3, 0, 0, 0, 0, 0]
        pos := 3
        writeAvail := 5
        readAvail := 3
        stream := [1, 2, 3] }
      (by decide) (by decide) (by decide) (by decide) (by decide)⟩

/-- A concrete channel state for the witness of claim C10: capacity 8,
write position 6, seven write permits free, one unconsumed readable byte
(at index 5, the read cursor). -/
def consoleW10 : EmuConsole :=
  { buf := [10, 11, 12, 13, 14, 15, 16, 17]
    pos := 6
    writeAvail := 7
    readAvail := 1
    stream := [99] }

/-- Witness for claim C10 at a concrete input: a three-byte message with
two bytes of contiguous space left triggers the ring-reuse scratch path. -/
theorem writeConsoleBuffer_reuse_safe_witness :
    (¬ ([1, 2, 3] : List Nat).length < min consoleW10.writeAvail (8 - consoleW10.pos)) ∧
    (([1, 2, 3] : List Nat).length < consoleW10.writeAvail - (8 - consoleW10.pos)) ∧
    (([1, 2, 3] : List Nat).length < readCursor 8 consoleW10 ∧
     (∀ i j, i ≤ ([1, 2, 3] : List Nat).length → j < consoleW10.readAvail →
       i ≠ (readCursor 8 consoleW10 + j) % 8) ∧
     ∃ s', writeConsoleBuffer 8 [1, 2, 3] consoleW10 = some s' ∧
       ∀ j, j < consoleW10.readAvail →
         s'.buf[(readCursor 8 consoleW10 + j) % 8]?
           = consoleW10.buf[(readCursor 8 consoleW10 + j) % 8]?) :=
  ⟨by decide, by decide,
    writeConsoleBuffer_reuse_safe 8 [1, 2, 3] consoleW10
      (by decide) (by decide) (by decide) (by decide) (by decide) (by decide)⟩

/-- Throttle-related state of `EmuThread`: the requested percentage
`speed`, the last published `actualSpeed`, the `throttleOn` flag, the
external `control.off` flag read by `setActualSpeed`, and the reference
time point `lastTime` (a steady-clock reading in nanoseconds). -/
structure ThrottleState where
  speed : Int
  actualSpeed : Int
  throttleOn : Bool
  controlOff : Bool
  lastTime : Int
  deriving DecidableEq

/-- Observable outcome of one `throttleTimerWait` call: the new state, the
`actualSpeedChanged` values emitted (in order), the `QThread::usleep`
durations performed (microseconds), the absolute deadline passed to
`sleep_until` if any, whether the processor was yielded, and the
elapsed-time divisors used by the instantaneous-speed division. -/
structure ThrottleResult where
  state : ThrottleState
  emitted : List Int
  usleeps : List Int
  sleptUntil : Option Int
  yielded : Bool
  divisors : List Int
  deriving DecidableEq

/-- `EmuThread::setActualSpeed` (lines 186-193): record and publish the
value only when the calculator is on (`!control.off`) and the value
differs from the previously published one. -/
def setActualSpeed (value : Int) (s : ThrottleState) : ThrottleState × List Int :=
  if ¬ s.controlOff then
    if s.actualSpeed ≠ value then ({ s with actualSpeed := value }, [value])
    else (s, [])
  else (s, [])

/-- The 10ms slices of the `while (!speed) { usleep(10000); }` loop:
`sched` is the sequence of values the repeated reads of `speed` observe
(the controller thread may change `speed` between reads); the loop exits
at the first non-zero read after sleeping once per zero read, and `none`
models a schedule on which the loop is still spinning. -/
def spinZero : List Int → Option Nat
  | [] => none
  | v :: rest => if v = 0 then (spinZero rest).map (fun n => n + 1) else some 0

/-- The throttling interval in steady-clock nanoseconds:
`duration_cast<steady_clock::duration>(duration<int, ratio<1, 60000000>>(1000000 * 100 / speed))`.
The tick count `1000000 * 100 / speed` divides truncating toward zero
(C++ `int` division) and the cast from 1/(60 million) seconds to
nanoseconds multiplies by 50 and truncates a division by 3. -/
def throttleInterval (speed : Int) : Int :=
  Int.tdiv (Int.tdiv 100000000 speed * 50) 3

/-- `next_time = lastTime + interval` of `throttleTimerWait`. -/
def nextDeadline (s : ThrottleState) : Int :=
  s.lastTime + throttleInterval s.speed

/-- The instantaneous-speed division `unit / (cur_time - lastTime)` where
`unit` is one tick of `ratio<100, 60>` (= 5/3) seconds: in the common
duration type of 1/(3 billion) seconds, `unit` counts 5 billion ticks and
each elapsed nanosecond 3 ticks, and integral duration division truncates
toward zero. -/
def instantSpeed (elapsed : Int) : Int :=
  Int.tdiv 5000000000 (3 * elapsed)

/-- `EmuThread::throttleTimerWait` (lines 195-218) for one call at
steady-clock time `now`.  If `speed` is zero, publish speed 0 and sleep in
10ms slices re-reading `speed` (reads given by `sched`) until it is
non-zero.  Otherwise, ahead of schedule with throttling on, publish the
requested speed, advance `lastTime` to the deadline and sleep until the
absolute deadline; behind schedule (or throttle off), publish the measured
instantaneous speed (only if some time elapsed, guarding the division) and
yield. -/
def throttleTimerWait (sched : List Int) (now : Int) (s : ThrottleState) :
    Option ThrottleResult :=
  if s.speed = 0 then
    let p := setActualSpeed 0 s
    match spinZero sched with
    | none => none
    | some k =>
      some { state := p.1
             emitted := p.2
             usleeps := List.replicate k 10000
             sleptUntil := none
             yielded := false
             divisors := [] }
  else
    let next := nextDeadline s
    if s.throttleOn ∧ now < next then
      let p := setActualSpeed s.speed s
      some { state := { p.1 with lastTime := next }
             emitted := p.2
             usleeps := []
             sleptUntil := some next
             yielded := false
             divisors := [] }
    else
      if s.lastTime ≠ now then
        let p := setActualSpeed (instantSpeed (now - s.lastTime)) s
        some { state := { p.1 with lastTime := now }
               emitted := p.2
               usleeps := []
               sleptUntil := none
               yielded := true
               divisors := [now - s.lastTime] }
      else
        some { state := s
               emitted := []
               usleeps := []
               sleptUntil := none
               yielded := true
               divisors := [] }

theorem setActualSpeed_off (value : Int) (s : ThrottleState) (h : s.controlOff = true) :
    setActualSpeed value s = (s, []) := by
  unfold setActualSpeed
  rw [if_neg (by simp [h])]

theorem setActualSpeed_on_eq (value : Int) (s : ThrottleState) (h : s.controlOff = false)
    (he : s.actualSpeed = value) :
    setActualSpeed value s = (s, []) := by
  unfold setActualSpeed
  rw [if_pos (by simp [h]), if_neg (by simp [he])]

theorem setActualSpeed_on_ne (value : Int) (s : ThrottleState) (h : s.controlOff = false)
    (he : s.actualSpeed ≠ value) :
    setActualSpeed value s = ({ s with actualSpeed := value }, [value]) := by
  unfold setActualSpeed
  rw [if_pos (by simp [h]), if_pos he]

/-- Counterexample to claim C5 as stated: with throttling enabled, the
current time before the deadline and the calculator off (`control.off`),
`throttleTimerWait` publishes nothing and leaves the achieved speed at its
old value instead of the requested one (the `setActualSpeed` guard). -/
def throttleAheadCex : ThrottleState :=
  { speed := 50, actualSpeed := 100, throttleOn := true, controlOff := true, lastTime := 0 }

theorem throttle_ahead_publish_counterexample :
    throttleAheadCex.speed ≠ 0 ∧ throttleAheadCex.throttleOn = true ∧
    (1000 : Int) < nextDeadline throttleAheadCex ∧
    (throttleTimerWait [] 1000 throttleAheadCex).map ThrottleResult.emitted = some [] ∧
    (throttleTimerWait [] 1000 throttleAheadCex).map (fun r => r.state.actualSpeed)
      = some 100 ∧
    throttleAheadCex.speed = 50 := by
  decide

/-- Claim C5 (amended): when throttling is enabled, `speed` is non-zero
and the current time is before `nextDeadline = lastTime + interval`
(interval derived from the base unit scaled by 100/speed), the routine
sets `lastTime` to `nextDeadline` (not to the current time) and sleeps
until the absolute deadline `nextDeadline`; it publishes the requested
speed as the achieved speed provided the calculator is on
(`control.off` false), emitting a change event exactly when the value
differs from the previously published one, and publishes nothing when the
calculator is off. -/
theorem throttle_ahead_spec (sched : List Int) (now : Int) (s : ThrottleState)
    (h0 : s.speed ≠ 0) (hth : s.throttleOn = true) (hnow : now < nextDeadline s) :
    ∃ r, throttleTimerWait sched now s = some r ∧
      r.state.lastTime = nextDeadline s ∧
      r.sleptUntil = some (nextDeadline s) ∧
      r.usleeps = [] ∧
      (s.controlOff = false → r.state.actualSpeed = s.speed ∧
        r.emitted = (if s.actualSpeed = s.speed then [] else [s.speed])) ∧
      (s.controlOff = true → r.state.actualSpeed = s.actualSpeed ∧ r.emitted = []) := by
  have hrun : throttleTimerWait sched now s
      = some { state := { (setActualSpeed s.speed s).1 with lastTime := nextDeadline s }
               emitted := (setActualSpeed s.speed s).2
               usleeps := []
               sleptUntil := some (nextDeadline s)
               yielded := false
               divisors := [] } := by
    simp only [throttleTimerWait]
    rw [if_neg h0, if_pos ⟨by simp [hth], hnow⟩]
  refine ⟨_, hrun, rfl, rfl, rfl, ?_, ?_⟩
  · intro hc
    by_cases ha : s.actualSpeed = s.speed
    · rw [setActualSpeed_on_eq s.speed s hc ha]
      exact ⟨ha, by rw [if_pos ha]⟩
    · rw [setActualSpeed_on_ne s.speed s hc ha]
      exact ⟨rfl, by rw [if_neg ha]⟩
  · intro hc
    rw [setActualSpeed_off s.speed s hc]
    exact ⟨rfl, rfl⟩

/-- Witness for the amended claim C5 at a concrete input: speed 50,
throttle on, calculator on, one nanosecond-scale tick into the interval. -/
def throttleAheadW : ThrottleState :=
  { speed := 50, actualSpeed := 100, throttleOn := true, controlOff := false, lastTime := 0 }

theorem throttle_ahead_spec_witness :
    throttleAheadW.speed ≠ 0 ∧ throttleAheadW.throttleOn = true ∧
    (1000 : Int) < nextDeadline throttleAheadW ∧
    (∃ r, throttleTimerWait [] 1000 throttleAheadW = some r ∧
      r.state.lastTime = nextDeadline throttleAheadW ∧
      r.sleptUntil = some (nextDeadline throttleAheadW) ∧
      r.usleeps = [] ∧
      (throttleAheadW.controlOff = false → r.state.actualSpeed = throttleAheadW.speed ∧
        r.emitted = (if throttleAheadW.actualSpeed = throttleAheadW.speed then []
          else [throttleAheadW.speed])) ∧
      (throttleAheadW.controlOff = true →
        r.state.actualSpeed = throttleAheadW.actualSpeed ∧ r.emitted = [])) :=
  ⟨by decide, by decide, by decide,
    throttle_ahead_spec [] 1000 throttleAheadW (by decide) (by decide) (by decide)⟩

/-- Counterexample to claim C6 as stated: with `speed = 0` but the
calculator off, `throttleTimerWait` publishes nothing at all (in
particular it does not publish `actualSpeed = 0` even once). -/
def throttleZeroCex : ThrottleState :=
  { speed := 0, actualSpeed := 7, throttleOn := false, controlOff := true, lastTime := 0 }

theorem throttle_zero_publish_counterexample :
    throttleZeroCex.speed = 0 ∧
    (throttleTimerWait [1] 0 throttleZeroCex).map ThrottleResult.emitted = some [] ∧
    (throttleTimerWait [1] 0 throttleZeroCex).map (fun r => r.state.actualSpeed)
      = some 7 := by
  decide

/-- Claim C6 (amended): whenever `speed` equals 0, `throttleTimerWait`
bypasses the interval machinery and repeatedly sleeps in fixed 10ms slices
re-checking `speed` until it becomes non-zero; it publishes `actualSpeed =
0` exactly when the calculator is on and the previously published value
was non-zero, and it never publishes a non-zero value while `speed` stays
0 (every emitted value is 0); when the calculator is on the recorded
achieved speed is 0 after the call. -/
theorem throttle_zero_spec (sched : List Int) (k : Nat) (now : Int) (s : ThrottleState)
    (h0 : s.speed = 0) (hspin : spinZero sched = some k) :
    ∃ r, throttleTimerWait sched now s = some r ∧
      r.emitted = (if s.controlOff = false ∧ s.actualSpeed ≠ 0 then [0] else []) ∧
      (∀ v ∈ r.emitted, v = 0) ∧
      r.usleeps = List.replicate k 10000 ∧
      r.sleptUntil = none ∧
      (s.controlOff = false → r.state.actualSpeed = 0) := by
  have hrun : throttleTimerWait sched now s
      = some { state := (setActualSpeed 0 s).1
               emitted := (setActualSpeed 0 s).2
               usleeps := List.replicate k 10000
               sleptUntil := none
               yielded := false
               divisors := [] } := by
    simp only [throttleTimerWait]
    rw [if_pos h0, hspin]
  cases hc : s.controlOff with
  | true =>
    rw [setActualSpeed_off 0 s hc] at hrun
    refine ⟨_, hrun, ?_, ?_, rfl, rfl, ?_⟩
    · rw [if_neg (by simp)]
    · intro v hv
      exact absurd hv (by simp)
    · intro hfalse
      exact absurd hfalse (by simp)
  | false =>
    by_cases ha : s.actualSpeed = 0
    · rw [setActualSpeed_on_eq 0 s hc ha] at hrun
      refine ⟨_, hrun, ?_, ?_, rfl, rfl, ?_⟩
      · rw [if_neg (by simp [ha])]
      · intro v hv
        exact absurd hv (by simp)
      · intro _
        exact ha
    · rw [setActualSpeed_on_ne 0 s hc ha] at hrun
      refine ⟨_, hrun, ?_, ?_, rfl, rfl, ?_⟩
      · rw [if_pos ⟨rfl, ha⟩]
      · intro v hv
        simp only [List.mem_singleton] at hv
        exact hv
      · intro _
        rfl

/-- Witness for the amended claim C6 at a concrete input: speed 0 with two
zero re-reads before the controller raises the speed to 5. -/
def throttleZeroW : ThrottleState :=
  { speed := 0, actualSpeed := 100, throttleOn := true, controlOff := false, lastTime := 0 }

theorem throttle_zero_spec_witness :
    throttleZeroW.speed = 0 ∧ spinZero [0, 0, 5] = some 2 ∧
    (∃ r, throttleTimerWait [0, 0, 5] 0 throttleZeroW = some r ∧
      r.emitted = (if throttleZeroW.controlOff = false ∧ throttleZeroW.actualSpeed ≠ 0
        then [0] else []) ∧
      (∀ v ∈ r.emitted, v = 0) ∧
      r.usleeps = List.replicate 2 10000 ∧
      r.sleptUntil = none ∧
      (throttleZeroW.controlOff = false → r.state.actualSpeed = 0)) :=
  ⟨by decide, by decide,
    throttle_zero_spec [0, 0, 5] 2 0 throttleZeroW (by decide) (by decide)⟩

/-- Claim C9: the instantaneous-speed division `unit / (cur_time -
lastTime)` is evaluated only under the guard `lastTime != cur_time`, so
every elapsed-time divisor recorded by a completed `throttleTimerWait`
call is non-zero. -/
theorem throttle_divisor_nonzero (sched : List Int) (now : Int) (s : ThrottleState)
    (r : ThrottleResult) (h : throttleTimerWait sched now s = some r) :
    ∀ d ∈ r.divisors, d ≠ 0 := by
  by_cases h0 : s.speed = 0
  · simp only [throttleTimerWait] at h
    rw [if_pos h0] at h
    cases hspin : spinZero sched with
    | none =>
      rw [hspin] at h
      exact absurd h (by simp)
    | some k =>
      rw [hspin] at h
      have hr := (Option.some.inj h).symm
      subst hr
      intro d hd
      exact absurd hd (by simp)
  · simp only [throttleTimerWait] at h
    rw [if_neg h0] at h
    by_cases h1 : s.throttleOn ∧ now < nextDeadline s
    · rw [if_pos h1] at h
      have hr := (Option.some.inj h).symm
      subst hr
      intro d hd
      exact absurd hd (by simp)
    · rw [if_neg h1] at h
      by_cases h2 : s.lastTime ≠ now
      · rw [if_pos h2] at h
        have hr := (Option.some.inj h).symm
        subst hr
        intro d hd
        simp only [List.mem_singleton] at hd
        subst hd
        omega
      · rw [if_neg h2] at h
        have hr := (Option.some.inj h).symm
        subst hr
        intro d hd
        exact absurd hd (by simp)

/-- Witness for claim C9 at a concrete input: the behind-schedule branch
with throttling off and a one-millisecond elapsed time records the
divisor 1000000, which is non-zero. -/
def throttleDivW : ThrottleState :=
  { speed := 50, actualSpeed := 100, throttleOn := false, controlOff := false, lastTime := 0 }

theorem throttle_divisor_nonzero_witness :
    (throttleTimerWait [] 1000000 throttleDivW
      = some { state := { speed := 50, actualSpeed := 1666, throttleOn := false
                          controlOff := false, lastTime := 1000000 }
               emitted := [1666]
               usleeps := []
               sleptUntil := none
               yielded := true
               divisors := [1000000] }) ∧
    ((1000000 : Int) ≠ 0) :=
  ⟨by decide,
    throttle_divisor_nonzero [] 1000000 throttleDivW
      { state := { speed := 50, actualSpeed := 1666, throttleOn := false
                   controlOff := false, lastTime := 1000000 }
        emitted := [1666]
        usleeps := []
        sleptUntil := none
        yielded := true
        divisors := [1000000] }
      (by decide) 1000000 (by decide)⟩

/-- Program counter of the computation thread through the receive section
of `EmuThread::doStuff` (lines 162-167): acquire the mutex
(`std::unique_lock lock(mutex)`), emit `receiveReady` and enter
`cv.wait(lock)` (which atomically releases the mutex and sleeps), be woken
by a notification, re-acquire the mutex, clear `enterReceiveState` and
release the lock. -/
inductive CompPC
  | start
  | locked
  | waiting
  | woken
  | done
  deriving DecidableEq

/-- Program counter of the controller thread through `EmuThread::unlock`
(lines 135-139): `mutex.lock()`, `cv.notify_all()`, `mutex.unlock()`. -/
inductive CtrlPC
  | start
  | locked
  | notified
  | done
  deriving DecidableEq

/-- Joint state of the receive rendezvous: whether the mutex is held (by
whichever thread last acquired it), both program counters, the pending
`enterReceiveState` flag, and whether `receiveReady` was emitted. -/
structure GateState where
  mutexHeld : Bool
  compPC : CompPC
  ctrlPC : CtrlPC
  enterReceiveState : Bool
  receiveReadySent : Bool
  deriving DecidableEq

inductive GateThread
  | comp
  | ctrl
  deriving DecidableEq

/-- One interleaving step of the rendezvous: running the named thread for
one atomic action (a blocked or finished thread leaves the state
unchanged).  `cv.notify_all` wakes exactly the threads currently sleeping
inside `cv.wait` — a C++ condition variable records nothing, so a
notification with no waiter is lost. -/
def gateStep (t : GateThread) (g : GateState) : GateState :=
  match t with
  | GateThread.comp =>
    match g.compPC with
    | CompPC.start =>
      if g.mutexHeld then g else { g with mutexHeld := true, compPC := CompPC.locked }
    | CompPC.locked =>
      { g with mutexHeld := false, compPC := CompPC.waiting, receiveReadySent := true }
    | CompPC.waiting => g
    | CompPC.woken =>
      if g.mutexHeld then g
      else { g with compPC := CompPC.done, enterReceiveState := false }
    | CompPC.done => g
  | GateThread.ctrl =>
    match g.ctrlPC with
    | CtrlPC.start =>
      if g.mutexHeld then g else { g with mutexHeld := true, ctrlPC := CtrlPC.locked }
    | CtrlPC.locked =>
      { g with ctrlPC := CtrlPC.notified
               compPC := if g.compPC = CompPC.waiting then CompPC.woken else g.compPC }
    | CtrlPC.notified => { g with mutexHeld := false, ctrlPC := CtrlPC.done }
    | CtrlPC.done => g

/-- Run a schedule (an arbitrary interleaving of the two threads). -/
def gateRun : List GateThread → GateState → GateState
  | [], g => g
  | t :: ts, g => gateRun ts (gateStep t g)

/-- Initial state of one receive cycle: `receive()` has set the pending
flag, the computation thread has not yet reached the checkpoint, and the
controller is about to call `unlock()`. -/
def gateInit : GateState :=
  { mutexHeld := false
    compPC := CompPC.start
    ctrlPC := CtrlPC.start
    enterReceiveState := true
    receiveReadySent := false }

/-- The state reached when the controller's `unlock()` runs to completion
before the computation thread enters the checkpoint: the notification
found no waiter and was lost, and the computation thread is now asleep in
`cv.wait`. -/
def gateStuck : GateState :=
  { mutexHeld := false
    compPC := CompPC.waiting
    ctrlPC := CtrlPC.done
    enterReceiveState := true
    receiveReadySent := true }

theorem gateStep_stuck_fixed : ∀ t, gateStep t gateStuck = gateStuck := by
  intro t
  cases t <;> rfl

theorem gateRun_stuck_fixed : ∀ sch, gateRun sch gateStuck = gateStuck := by
  intro sch
  induction sch with
  | nil => rfl
  | cons t ts ih =>
    show gateRun ts (gateStep t gateStuck) = gateStuck
    rw [gateStep_stuck_fixed t]
    exact ih

/-- Sanity check of the model, not a claim: when the signal is issued
while the computation thread is already waiting (the order the
`receiveReady`-then-`unlock` protocol produces), the wait is released and
the cycle completes, clearing the pending flag. -/
theorem gate_signal_while_waiting_completes :
    (gateRun [GateThread.comp, GateThread.comp, GateThread.ctrl, GateThread.ctrl,
      GateThread.ctrl, GateThread.comp] gateInit).compPC = CompPC.done ∧
    (gateRun [GateThread.comp, GateThread.comp, GateThread.ctrl, GateThread.ctrl,
      GateThread.ctrl, GateThread.comp] gateInit).enterReceiveState = false := by
  decide

/-- Claim C3 fails on the code: `cv.wait` is used without a predicate and
`unlock` records nothing, so when the signal (`unlock`) completes before
the computation thread reaches the wait, the notification is lost and the
subsequent `cv.wait` blocks forever — under every further schedule the
computation thread stays in the waiting state with the pending flag still
set. -/
theorem unlock_before_wait_blocks_forever :
    (gateRun [GateThread.ctrl, GateThread.ctrl, GateThread.ctrl, GateThread.comp,
      GateThread.comp] gateInit) = gateStuck ∧
    gateStuck.compPC = CompPC.waiting ∧
    gateStuck.enterReceiveState = true ∧
    ∀ sch, (gateRun sch gateStuck).compPC = CompPC.waiting := by
  refine ⟨by decide, by decide, by decide, ?_⟩
  intro sch
  rw [gateRun_stuck_fixed sch]
  rfl

/-- State touched by `EmuThread::stop` (lines 242-260): whether the
thread is running, the `lcd_gui_callback` pointer (modelled as a set/null
flag), the `exiting` flag, and `cpu.next` (the remaining-instructions
counter of the external CPU). -/
structure StopState where
  isRunning : Bool
  lcdCallback : Bool
  exiting : Bool
  cpuNext : Int
  deriving DecidableEq

/-- Outcome of one `stop()` call: return value, final state, whether
`terminate()` was invoked, and the timeouts (ms) of the `wait` calls
issued, in order. -/
structure StopResult where
  ret : Bool
  state : StopState
  terminated : Bool
  waits : List Nat
  deriving DecidableEq

/-- `EmuThread::stop` (lines 242-260): `wait1` and `wait2` are the
outcomes of the two `wait(200)` calls (whether the thread finished within
the 200ms timeout). -/
def stop (wait1 wait2 : Bool) (s : StopState) : StopResult :=
  if ¬ s.isRunning then
    { ret := true, state := s, terminated := false, waits := [] }
  else
    let s' : StopState := { s with lcdCallback := false, exiting := true, cpuNext := 0 }
    if wait1 then
      { ret := true, state := s', terminated := false, waits := [200] }
    else
      if wait2 then
        { ret := true, state := s', terminated := true, waits := [200, 200] }
      else
        { ret := false, state := s', terminated := true, waits := [200, 200] }

/-- Claim C4: `stop()` returns true immediately (no state change, no
waiting, no termination) when the thread is not running; otherwise it sets
the cooperative exit condition (the `exiting` flag and `cpu.next = 0`,
clearing the lcd callback) and waits up to 200ms: if the thread exits in
time it returns true without forced termination; otherwise it calls
`terminate()`, waits a second 200ms timeout, and returns false exactly
when the thread still has not exited. -/
theorem stop_spec_correct : ∀ (w1 w2 : Bool) (s : StopState),
    stop w1 w2 s =
      if s.isRunning = false then
        { ret := true, state := s, terminated := false, waits := [] }
      else
        { ret := (w1 || w2)
          state := { s with lcdCallback := false, exiting := true, cpuNext := 0 }
          terminated := !w1
          waits := if w1 then [200] else [200, 200] } := by
  intro w1 w2 s
  obtain ⟨run, lcd, ex, cn⟩ := s
  cases run <;> cases w1 <;> cases w2 <;> rfl

/-- `EmuThread::sendFiles` (lines 175-184): iterate the requested items in
order, invoking the external transfer collaborator `sendVariableLink`
(modelled by the oracle `link`, which may report any status, including
failures) once per item and emitting a `sentFile(name, status)` event
after each, then emit one terminating `sentFile(QString(), LINK_GOOD)`
event whose name is empty (modelled as `none`); `LINK_GOOD` is the success
status constant of the external link protocol. -/
def sendFiles (link : String → Nat → Nat) (LINK_GOOD : Nat)
    (vars : List String) (sendLoc : Nat) : List (Option String × Nat) :=
  vars.map (fun f => (some f, link f sendLoc)) ++ [(none, LINK_GOOD)]

/-- Claim C7: for every requested batch of N items, the checkpoint emits
exactly N + 1 `sentFile` events: for each index below N, one event
carrying that item's name and its transfer status, in caller-supplied
order, and at index N exactly one terminating event with an empty name —
regardless of the statuses the transfer collaborator returns. -/
theorem sendFiles_events (link : String → Nat → Nat) (LINK_GOOD : Nat)
    (vars : List String) (sendLoc : Nat) :
    (sendFiles link LINK_GOOD vars sendLoc).length = vars.length + 1 ∧
    (∀ i, i < vars.length →
      (sendFiles link LINK_GOOD vars sendLoc)[i]?
        = (vars[i]?).map (fun f => (some f, link f sendLoc))) ∧
    (sendFiles link LINK_GOOD vars sendLoc)[vars.length]? = some (none, LINK_GOOD) := by
  refine ⟨by simp [sendFiles], ?_, ?_⟩
  · intro i hi
    unfold sendFiles
    rw [List.getElem?_append_left (by simp [hi]), List.getElem?_map]
  · unfold sendFiles
    rw [List.getElem?_append_right (by simp)]
    simp

/-- Witness for claim C7 at a concrete input: a batch of two items with an
oracle that reports different statuses per item. -/
theorem sendFiles_events_witness :
    (sendFiles (fun f loc => f.length + loc) 0 ["ab", "c"] 4).length = 3 ∧
    (∀ i, i < (["ab", "c"] : List String).length →
      (sendFiles (fun f loc => f.length + loc) 0 ["ab", "c"] 4)[i]?
        = ((["ab", "c"] : List String)[i]?).map (fun f => (some f, f.length + 4))) ∧
    (sendFiles (fun f loc => f.length + loc) 0 ["ab", "c"] 4)[2]? = some (none, 0) :=
  sendFiles_events (fun f loc => f.length + loc) 0 ["ab", "c"] 4

/-- Debugger request state of `EmuThread`: the sticky `enterDebugger`
request flag and the `inDebugger` flag tracking whether the thread is
currently inside the debugger. -/
structure DebugState where
  enterDebugger : Bool
  inDebugger : Bool
  deriving DecidableEq

/-- Debugger collaborator calls that `EmuThread::debug` may issue. -/
inductive DebugAction
  | clearTempBreak
  | closeDebugger
  deriving DecidableEq

/-- `EmuThread::debug` (lines 117-123): record the requested state in
`enterDebugger`; additionally, when currently inside the debugger and the
request is to leave, clear the temporary breakpoints and close the
debugger. -/
def debug (state : Bool) (s : DebugState) : DebugState × List DebugAction :=
  ({ s with enterDebugger := state },
   if s.inDebugger ∧ state = false then
     [DebugAction.clearTempBreak, DebugAction.closeDebugger]
   else [])

/-- Counterexample to claim C8 as stated: `debug false` outside the
debugger with a pending enter request is not a state-preserving no-op — it
overwrites `enterDebugger` with `false`, cancelling the pending request
(while correctly issuing no debugger action). -/
theorem debug_exit_noop_counterexample :
    (debug false { enterDebugger := true, inDebugger := false }).1
      ≠ ({ enterDebugger := true, inDebugger := false } : DebugState) ∧
    (debug false { enterDebugger := true, inDebugger := false }).2 = [] := by
  decide

/-- Claim C8 (amended): requesting debugger exit (`debug false`) while
inside the debugger clears the temporary breakpoint state and closes the
debugger; in every other state it issues no debugger action — but in all
cases the call records the exit request by setting `enterDebugger` to
`false`, in particular cancelling a still-pending enter request rather
than leaving the state unchanged. -/
theorem debug_exit_spec : ∀ s : DebugState,
    debug false s
      = ({ enterDebugger := false, inDebugger := s.inDebugger },
         if s.inDebugger then [DebugAction.clearTempBreak, DebugAction.closeDebugger]
         else []) := by
  intro s
  obtain ⟨e, d⟩ := s
  cases d <;> rfl

end CEmu
